import Mathlib

/-!
Verification of the APOLLO streaming analysis client.

The development shallowly embeds the frontend subsystem:
* the frame decoder of `analyzeStream` (buffer accumulation, blank-line
  delimiter scanning, `data:` stripping, JSON parsing via an abstract
  parse function),
* the lifecycle controller of `handleAnalyze` / `handleCancel`
  (the `onEvent` callback, the rejection classifier, abort controllers),
* the adaptive rendering policy of `ChartPanel` (label stride, tooltips).

Byte streams are lists of naturals (< 256); strings under scrutiny are
lists of characters; JS numbers that are only stored and compared are
modelled as rationals.
-/

set_option maxRecDepth 8192

namespace Apollo

/-! Whitespace and trimming, as used by JavaScript `String.prototype.trim`
on the ASCII subset relevant to the wire protocol. -/

/-- Whitespace test for trimming (space, tab, newline, carriage return). -/
def isWs (c : Char) : Bool :=
  c = ' ' || c = '\t' || c = '\n' || c = '\r'

/-- Drop leading whitespace. -/
def trimLeft (l : List Char) : List Char :=
  l.dropWhile isWs

/-- Drop trailing whitespace. -/
def trimRight (l : List Char) : List Char :=
  (l.reverse.dropWhile isWs).reverse

/-- Both-ends trim, the model of `chunk.trim()`. -/
def trim (l : List Char) : List Char :=
  trimRight (trimLeft l)

/-- The characters of the literal frame marker `data:`. -/
def dataLit : List Char := ['d', 'a', 't', 'a', ':']

/-- Model of `chunk.startsWith("data:")`. -/
def startsWithData : List Char → Bool
  | 'd' :: 'a' :: 't' :: 'a' :: ':' :: _ => true
  | _ => false

/-- Model of `buffer.indexOf("\n\n")` plus the two slices: returns the text
before the first blank-line delimiter and the text after it, or `none` when
no delimiter occurs. -/
def splitFrame : List Char → Option (List Char × List Char)
  | [] => none
  | [_] => none
  | c1 :: c2 :: rest =>
    if c1 = '\n' ∧ c2 = '\n' then some ([], rest)
    else
      match splitFrame (c2 :: rest) with
      | some (a, b) => some (c1 :: a, b)
      | none => none

/-! Data model of the wire events and the controller state, from
`api/types.ts` and `App.tsx`. -/

/-- Remote source status carried in a result payload (`ftpStatus`). -/
inductive RemoteStatus
  | ok
  | error
deriving DecidableEq, Repr

/-- One analysis point (`AnalyzePoint` in `api/types.ts`). -/
structure AnalyzePoint where
  idx : Int
  value : ℚ
  label : String
  timeIso : String
  localPathId : String
deriving DecidableEq, Repr

/-- Terminal success payload (`AnalyzeResponse` in `api/types.ts`). -/
structure AnalyzeResponse where
  points : List AnalyzePoint
  mean : Option ℚ
  totalFiles : Int
  machineRuntimePercent : ℚ
  ftpStatus : RemoteStatus
  latestFileName : Option String
deriving DecidableEq, Repr

/-- A decoded stream event (`ProgressEvent` in `api/types.ts`): every field
optional. -/
structure Event where
  progress : Option ℚ
  stage : Option String
  result : Option AnalyzeResponse
  error : Option String
  status : Option Int
deriving DecidableEq, Repr

/-- Status-bar level (`StatusLevel` in `StatusBar.tsx`). -/
inductive StatusLevel
  | info
  | warn
  | error
  | ok
deriving DecidableEq, Repr

/-- The React state of `App.tsx` that the lifecycle claims are about:
`running`, `progress`, `result` and the status-bar line. -/
structure AppState where
  running : Bool
  progress : ℚ
  result : Option AnalyzeResponse
  statusLevel : StatusLevel
  statusMsg : String
deriving DecidableEq, Repr

/-- The abstract lifecycle phases of the specification. -/
inductive Lifecycle
  | idle
  | running
  | succeeded
  | failed
  | cancelled
deriving DecidableEq, Repr

/-- Abstraction map from the concrete React state to the specification's
lifecycle phase: while `running` the phase is Running; afterwards the
status-bar level distinguishes Succeeded (`OK`), Failed (`ERROR`) and
Cancelled (`WARN`, which the code only emits for aborts). -/
def lifecycleOf (s : AppState) : Lifecycle :=
  if s.running then .running
  else
    match s.statusLevel with
    | .ok => .succeeded
    | .error => .failed
    | .warn => .cancelled
    | .info => .idle

/-- The `onEvent` callback of `handleAnalyze` (App.tsx lines 97-110):
three independent field checks, applied in source order.  `event.progress
!== undefined` stores the raw value; `if (event.error)` is JS truthiness,
so only a nonempty message fires; `if (event.result)` fires for any
present payload. -/
def onEvent (e : Event) (s : AppState) : AppState :=
  let s1 :=
    match e.progress with
    | some p => { s with progress := p }
    | none => s
  let s2 :=
    match e.error with
    | some m =>
      if m ≠ "" then
        { s1 with
          statusLevel := .error
          statusMsg := m
          running := false }
      else s1
    | none => s1
  match e.result with
  | some r =>
    { s2 with
      result := some r
      statusLevel := .ok
      statusMsg := "FERTIG"
      running := false
      progress := 1 }
  | none => s2

/-- The `.catch` classifier of `handleAnalyze` (App.tsx lines 111-118):
if the closure's own abort signal is set the status becomes
`WARN "Analyse abgebrochen"`, otherwise `ERROR` with the error's message;
either way `running` becomes false. -/
def catchUpdate (aborted : Bool) (msg : String) (s : AppState) : AppState :=
  if aborted then
    { s with
      statusLevel := .warn
      statusMsg := "Analyse abgebrochen"
      running := false }
  else
    { s with
      statusLevel := .error
      statusMsg := msg
      running := false }

/-! The global system state: the app state plus the abort controllers
(`controllerRef` and the `AbortController` instances). -/

/-- Global state: the React state, the id of the current abort controller
(`controllerRef.current`), a fresh-id counter, and the set of ids whose
`abort()` has been called. -/
structure SysState where
  app : AppState
  current : Option Nat
  nextId : Nat
  abortedIds : List Nat
deriving DecidableEq, Repr

/-- The initial mount state of `App.tsx`. -/
def initSys : SysState :=
  { app :=
      { running := false
        progress := 0
        result := none
        statusLevel := .info
        statusMsg := "Bereit" }
    current := none
    nextId := 0
    abortedIds := [] }

/-- The synchronous body of `handleAnalyze` after validation (App.tsx lines
80-96): abort the previous controller if any, install a fresh one, set
`running`, reset `progress`, show the INFO status.  The stored result is
not cleared. -/
def startSync (g : SysState) : SysState :=
  let ab :=
    match g.current with
    | some c => c :: g.abortedIds
    | none => g.abortedIds
  { app :=
      { g.app with
        running := true
        progress := 0
        statusLevel := .info
        statusMsg := "ANALYSE LÄUFT…" }
    current := some g.nextId
    nextId := g.nextId + 1
    abortedIds := ab }

/-- `handleCancel` (App.tsx lines 121-123): abort the current controller. -/
def handleCancel (g : SysState) : SysState :=
  match g.current with
  | some c => { g with abortedIds := c :: g.abortedIds }
  | none => g

/-- Delivery of a decoded event by the stream owned by controller `owner`.
The code attaches no ownership guard: the closure updates the shared React
state regardless of which stream it belongs to ... the `owner` argument is
ignored, faithfully to the source. -/
def deliverEvent (_owner : Nat) (e : Event) (g : SysState) : SysState :=
  { g with app := onEvent e g.app }

/-- Delivery of the rejection of the promise owned by controller `owner`:
the catch handler checks its own controller's abort signal. -/
def deliverCatch (owner : Nat) (msg : String) (g : SysState) : SysState :=
  { g with app := catchUpdate (g.abortedIds.contains owner) msg g.app }

/-! The adaptive rendering policy of `ChartPanel.tsx`. -/

/-- The label stride computed by `ChartPanel` (line 243):
`Math.max(1, Math.floor(points.length / maxLabels))`. -/
def chartStep (numPoints maxLabels : Nat) : Nat :=
  max 1 (numPoints / maxLabels)

/-- The axis-label interval callback (lines 260-262):
`(value, index) => index % step === 0`. -/
def axisLabelShow (numPoints maxLabels idx : Nat) : Bool :=
  idx % chartStep numPoints maxLabels == 0

/-- Modelled from the spec's words for the refinement comparison:
`labelStride = max(1, floor(N / maxLabels))`. -/
def labelStrideSpec (n maxLabels : Nat) : Nat :=
  max 1 (n / maxLabels)

/-- The tooltip gate of `ChartPanel` (line 241):
`tooltipEnabled && points.length <= tooltipThreshold`. -/
def showTooltips (tooltipEnabled : Bool) (numPoints tooltipThreshold : Nat) : Bool :=
  tooltipEnabled && decide (numPoints ≤ tooltipThreshold)

/-! The frame-decoding loop of `analyzeStream` (client.ts lines 68-89). -/

/-- Result of draining the buffer: either the remaining undelimited text,
or a decode failure carrying the text `JSON.parse` rejected. -/
inductive FrameOut
  | ok (buf : List Char)
  | err (data : List Char)
deriving DecidableEq, Repr

theorem splitFrame_eq_append :
    ∀ l a b, splitFrame l = some (a, b) → l = a ++ '\n' :: '\n' :: b := by
  intro l
  induction l with
  | nil => intro a b h; simp [splitFrame] at h
  | cons c1 t ih =>
    intro a b h
    cases t with
    | nil => simp [splitFrame] at h
    | cons c2 rest =>
      rw [splitFrame] at h
      split at h
      · rename_i hnl
        obtain ⟨h1, h2⟩ := hnl
        injection h with h
        injection h with ha hb
        subst ha; subst hb; subst h1; subst h2
        rfl
      · rename_i hnl
        cases hsf : splitFrame (c2 :: rest) with
        | none => rw [hsf] at h; simp at h
        | some p =>
          obtain ⟨a0, b0⟩ := p
          rw [hsf] at h
          simp at h
          obtain ⟨ha, hb⟩ := h
          have := ih a0 b0 hsf
          subst ha; subst hb
          simp [this]

theorem splitFrame_rest_lt {l a b : List Char} (h : splitFrame l = some (a, b)) :
    b.length < l.length := by
  have := splitFrame_eq_append l a b h
  subst this
  simp
  omega

/-- The inner `while` of `analyzeStream` (lines 78-87): repeatedly cut the
buffer at the first blank-line delimiter; trim the cut text; if it starts
with `data:` strip that marker and trim again; a nonempty payload goes
through `parse` (the model of `JSON.parse`) and is emitted, a failing
parse aborts the whole decode with an error, an empty payload or a frame
without the marker is dropped silently. -/
def processBuffer (parse : List Char → Option Event) (buf : List Char) :
    List Event × FrameOut :=
  match hs : splitFrame buf with
  | none => ([], .ok buf)
  | some (frame, rest) =>
    have : rest.length < buf.length := splitFrame_rest_lt hs
    let chunk := trim frame
    if startsWithData chunk then
      let data := trim (chunk.drop 5)
      if data = [] then processBuffer parse rest
      else
        match parse data with
        | some v =>
          let r := processBuffer parse rest
          (v :: r.1, r.2)
        | none => ([], .err data)
    else processBuffer parse rest
termination_by buf.length

/-! A byte-level model of `TextDecoder` in streaming mode: UTF-8 encoding
of characters, and a greedy incremental decoder that keeps an incomplete
trailing sequence pending between fragments. -/

/-- UTF-8 encoding of one character (bytes as naturals below 256). -/
def utf8EncodeChar (c : Char) : List Nat :=
  let n := c.toNat
  if n < 0x80 then [n]
  else if n < 0x800 then [0xC0 + n / 64, 0x80 + n % 64]
  else if n < 0x10000 then
    [0xE0 + n / 4096, 0x80 + (n / 64) % 64, 0x80 + n % 64]
  else
    [0xF0 + n / 262144, 0x80 + (n / 4096) % 64, 0x80 + (n / 64) % 64, 0x80 + n % 64]

/-- UTF-8 encoding of a string. -/
def utf8Encode : List Char → List Nat
  | [] => []
  | c :: cs => utf8EncodeChar c ++ utf8Encode cs

/-- Continuation-byte test (`10xxxxxx`). -/
def isCont (b : Nat) : Bool :=
  decide (0x80 ≤ b) && decide (b < 0xC0)

/-- The replacement character emitted for invalid sequences. -/
def replChar : Char := Char.ofNat 0xFFFD

/-- Decode at most one scalar value from the front of the byte buffer:
`none` means the buffer is empty or holds only an incomplete lead of a
longer sequence (kept pending until more bytes arrive); invalid bytes
yield the replacement character, as `TextDecoder` does by default. -/
def decode1 : List Nat → Option (Char × List Nat)
  | [] => none
  | b :: rest =>
    if b < 0x80 then some (Char.ofNat b, rest)
    else if b < 0xC0 then some (replChar, rest)
    else if b < 0xE0 then
      match rest with
      | [] => none
      | b1 :: r1 =>
        if isCont b1 then
          some (Char.ofNat ((b - 0xC0) * 64 + (b1 - 0x80)), r1)
        else some (replChar, rest)
    else if b < 0xF0 then
      match rest with
      | b1 :: b2 :: r2 =>
        if isCont b1 && isCont b2 then
          some (Char.ofNat ((b - 0xE0) * 4096 + (b1 - 0x80) * 64 + (b2 - 0x80)), r2)
        else some (replChar, rest)
      | _ => none
    else if b < 0xF8 then
      match rest with
      | b1 :: b2 :: b3 :: r3 =>
        if isCont b1 && isCont b2 && isCont b3 then
          some (Char.ofNat ((b - 0xF0) * 262144 + (b1 - 0x80) * 4096 +
                            (b2 - 0x80) * 64 + (b3 - 0x80)), r3)
        else some (replChar, rest)
      | _ => none
    else some (replChar, rest)

theorem decode1_rest_lt :
    ∀ bs c r, decode1 bs = some (c, r) → r.length < bs.length := by
  intro bs c r h
  match bs with
  | [] => simp [decode1] at h
  | b :: rest =>
    rw [decode1.eq_def] at h
    simp only at h
    split at h
    · injection h with h; injection h with h1 h2; subst h2; simp
    · split at h
      · injection h with h; injection h with h1 h2; subst h2; simp
      · split at h
        · match rest with
          | [] => simp at h
          | b1 :: r1 =>
            simp only at h
            split at h <;>
              (injection h with h; injection h with h1 h2; subst h2;
               simp only [List.length_cons]; omega)
        · split at h
          · match rest with
            | [] => simp at h
            | [b1] => simp at h
            | b1 :: b2 :: r2 =>
              simp only at h
              split at h <;>
                (injection h with h; injection h with h1 h2; subst h2;
                 simp only [List.length_cons]; omega)
          · split at h
            · match rest with
              | [] => simp at h
              | [b1] => simp at h
              | [b1, b2] => simp at h
              | b1 :: b2 :: b3 :: r3 =>
                simp only at h
                split at h <;>
                  (injection h with h; injection h with h1 h2; subst h2;
                   simp only [List.length_cons]; omega)
            · injection h with h; injection h with h1 h2; subst h2; simp

/-- Drain the byte buffer greedily: the decoded text plus the pending
incomplete tail, the model of one `decoder.decode(value, {stream: true})`
call applied to the pending bytes followed by the fragment. -/
def decodeStep (bs : List Nat) : List Char × List Nat :=
  match hd : decode1 bs with
  | none => ([], bs)
  | some (c, r) =>
    have : r.length < bs.length := decode1_rest_lt bs c r hd
    let p := decodeStep r
    (c :: p.1, p.2)
termination_by bs.length

/-! The read loop: fragments arrive in order; each is decoded and appended
to the text buffer, then the buffer is drained of complete frames. -/

/-- Outcome of a whole stream: closed normally with a discarded leftover
buffer, or terminated by a decode failure. -/
inductive StreamOut
  | closed (buf : List Char)
  | failed (data : List Char)
deriving DecidableEq, Repr

/-- Concatenation of a list of lists. -/
def joinL : List (List α) → List α
  | [] => []
  | l :: ls => l ++ joinL ls

/-- The read loop at text granularity: each fragment is appended to the
buffer which is then drained; a decode failure stops the loop, stream end
discards the leftover buffer. -/
def runText (parse : List Char → Option Event) :
    List Char → List (List Char) → List Event × StreamOut
  | buf, [] => ([], .closed buf)
  | buf, f :: fs =>
    match processBuffer parse (buf ++ f) with
    | (evs, .ok b) =>
      let r := runText parse b fs
      (evs ++ r.1, r.2)
    | (evs, .err d) => (evs, .failed d)

/-- The read loop of `analyzeStream` at byte granularity: the stateful
text decoder carries its pending bytes from fragment to fragment. -/
def runStream (parse : List Char → Option Event) :
    List Nat → List Char → List (List Nat) → List Event × StreamOut
  | _, buf, [] => ([], .closed buf)
  | pending, buf, f :: fs =>
    let d := decodeStep (pending ++ f)
    match processBuffer parse (buf ++ d.1) with
    | (evs, .ok b) =>
      let r := runStream parse d.2 b fs
      (evs ++ r.1, r.2)
    | (evs, .err d0) => (evs, .failed d0)

/-- The decoded-text fragments produced while feeding the byte fragments
through the stateful decoder. -/
def charFrags : List Nat → List (List Nat) → List (List Char)
  | _, [] => []
  | pending, f :: fs =>
    let d := decodeStep (pending ++ f)
    d.1 :: charFrags d.2 fs

/-- A whole `analyzeStream` call as seen by `handleAnalyze`: the decoded
events are applied to the state in arrival order through `onEvent`; when
the decode fails the rejection runs through the catch classifier with the
closure's abort flag. -/
def analyzeRun (parse : List Char → Option Event) (errMsg : List Char → String)
    (aborted : Bool) (frags : List (List Nat)) (s0 : AppState) : AppState :=
  let r := runStream parse [] [] frags
  let s1 := r.1.foldl (fun s e => onEvent e s) s0
  match r.2 with
  | .closed _ => s1
  | .failed d => catchUpdate aborted (errMsg d) s1

/-- A serialized wire frame `data:<payload>\n\n`. -/
def mkFrame (p : List Char) : List Char :=
  dataLit ++ p ++ ['\n', '\n']

/-- A payload in the form the producer serializes: no newline inside, no
surrounding whitespace, nonempty — as `JSON.stringify` output always is. -/
def goodPayload (p : List Char) : Prop :=
  '\n' ∉ p ∧ trimLeft p = p ∧ trimRight p = p ∧ p ≠ []

instance (p : List Char) : Decidable (goodPayload p) := by
  unfold goodPayload
  infer_instance

/-! Concrete fixtures for counterexamples and witnesses. -/

/-- An event literal with the given progress, result and error fields. -/
def evt (p : Option ℚ) (r : Option AnalyzeResponse) (e : Option String) : Event :=
  { progress := p, stage := none, result := r, error := e, status := none }

/-- A concrete parse function for witnesses: the payload `1` maps to a
progress event, everything else is rejected. -/
def parse1 : List Char → Option Event :=
  fun l => if l = ['1'] then some (evt (some 1) none none) else none

/-- A minimal concrete result payload. -/
def sampleResponse : AnalyzeResponse :=
  { points := []
    mean := none
    totalFiles := 0
    machineRuntimePercent := 0
    ftpStatus := .ok
    latestFileName := none }

/-- The state right after a successful `start`. -/
def runningState : AppState :=
  { running := true
    progress := 0
    result := none
    statusLevel := .info
    statusMsg := "ANALYSE LÄUFT…" }

/-- A state in the Succeeded phase. -/
def succeededState : AppState :=
  { running := false
    progress := 1
    result := some sampleResponse
    statusLevel := .ok
    statusMsg := "FERTIG" }

end Apollo

namespace Apollo

/-! Claim C1: terminal precedence. -/

/-- Counterexample to claim C1: the event `{error: "x", result: {...}}`
applied while Running leaves the controller Succeeded with the result
stored — not Failed as the claim requires — because `handleAnalyze` runs
the `error` and `result` branches independently and the `result` branch
runs last. -/
theorem c1_error_precedence_cex :
    lifecycleOf (onEvent (evt none (some sampleResponse) (some "x")) runningState) =
      .succeeded
    ∧ lifecycleOf (onEvent (evt none (some sampleResponse) (some "x")) runningState) ≠
      .failed
    ∧ (onEvent (evt none (some sampleResponse) (some "x")) runningState).result =
      some sampleResponse
    ∧ (onEvent (evt none (some sampleResponse) (some "x")) runningState).statusMsg =
      "FERTIG" := by
  refine ⟨rfl, by decide, rfl, rfl⟩

/-- Claim C1 as amended: for every decoded event that carries both an
`error` field and a `result` field, applying the event while Running runs
both terminal branches in source order, and the `result` branch, running
last, determines the final state: the controller ends Succeeded with the
result stored, progress forced to 1 and status `OK FERTIG`; the error
message only transiently occupies the status line and `result` wins over
`error`. -/
theorem c1_error_precedence_amended (s : AppState) (r : AnalyzeResponse)
    (m : String) (hm : m ≠ "") (hrun : s.running = true) :
    onEvent (evt none (some r) (some m)) s =
      { running := false, progress := 1, result := some r,
        statusLevel := .ok, statusMsg := "FERTIG" }
    ∧ lifecycleOf (onEvent (evt none (some r) (some m)) s) = .succeeded := by
  refine ⟨?_, ?_⟩ <;> simp [onEvent, evt, lifecycleOf]

/-- Witness for `c1_error_precedence_amended` at a concrete input. -/
theorem c1_error_precedence_amended_witness :
    ("x" : String) ≠ "" ∧ runningState.running = true ∧
    (onEvent (evt none (some sampleResponse) (some "x")) runningState =
      { running := false, progress := 1, result := some sampleResponse,
        statusLevel := .ok, statusMsg := "FERTIG" }
    ∧ lifecycleOf (onEvent (evt none (some sampleResponse) (some "x")) runningState) =
      .succeeded) :=
  ⟨by decide, rfl,
    c1_error_precedence_amended runningState sampleResponse "x" (by decide) rfl⟩

/-! Claim C2: supersession. -/

/-- Counterexample to claim C2: after a second `start` supersedes the
first, the first stream's rejection callback (its controller was aborted
by the second `start`) is still delivered and flips `running` to false and
the status line to `WARN Analyse abgebrochen`, altering the lifecycle
state established by the second request. -/
theorem c2_supersession_cex :
    (deliverCatch 0 "AbortError" (startSync (startSync initSys))).app.running = false
    ∧ (startSync (startSync initSys)).app.running = true
    ∧ (deliverCatch 0 "AbortError" (startSync (startSync initSys))).app.statusMsg =
      "Analyse abgebrochen"
    ∧ (deliverCatch 0 "AbortError" (startSync (startSync initSys))).app ≠
      (startSync (startSync initSys)).app := by
  refine ⟨rfl, rfl, rfl, by decide⟩

/-- Claim C2 as amended: a second `start` aborts the first request's
controller, but the first stream's callbacks are not invalidated: its
rejection callback, delivered after the second `start`, sets `running`
to false and the status line to `WARN Analyse abgebrochen` (leaving
progress and result untouched), and any event the superseded stream still
delivers is applied to the shared state exactly as a current-stream event
would be (the code attaches no ownership guard). -/
theorem c2_supersession_amended (g : SysState) (owner : Nat) (msg : String)
    (hab : g.abortedIds.contains owner = true) :
    (deliverCatch owner msg g).app.running = false
    ∧ (deliverCatch owner msg g).app.statusLevel = .warn
    ∧ (deliverCatch owner msg g).app.statusMsg = "Analyse abgebrochen"
    ∧ (deliverCatch owner msg g).app.progress = g.app.progress
    ∧ (deliverCatch owner msg g).app.result = g.app.result
    ∧ (∀ e o2, deliverEvent owner e g = deliverEvent o2 e g) := by
  have hmem : owner ∈ g.abortedIds := by simpa using hab
  simp [deliverCatch, catchUpdate, deliverEvent, hmem]

/-- Witness for `c2_supersession_amended`: the concrete superseded
first controller (id 0) after two starts. -/
theorem c2_supersession_amended_witness :
    (startSync (startSync initSys)).abortedIds.contains 0 = true ∧
    ((deliverCatch 0 "AbortError" (startSync (startSync initSys))).app.running = false
    ∧ (deliverCatch 0 "AbortError" (startSync (startSync initSys))).app.statusLevel = .warn
    ∧ (deliverCatch 0 "AbortError" (startSync (startSync initSys))).app.statusMsg =
      "Analyse abgebrochen"
    ∧ (deliverCatch 0 "AbortError" (startSync (startSync initSys))).app.progress =
      (startSync (startSync initSys)).app.progress
    ∧ (deliverCatch 0 "AbortError" (startSync (startSync initSys))).app.result =
      (startSync (startSync initSys)).app.result
    ∧ (∀ e o2, deliverEvent 0 e (startSync (startSync initSys)) =
        deliverEvent o2 e (startSync (startSync initSys)))) :=
  ⟨by decide, c2_supersession_amended (startSync (startSync initSys)) 0 "AbortError" (by decide)⟩

/-! Claim C3: terminality of error and result events. -/

/-- Counterexample to claim C3: after the terminal `result` event has been
applied, a later `progress` event of the same stream is still consumed and
overwrites the stored progress (1 becomes 1/2), so the state does change
after the terminal transition. -/
theorem c3_stop_consuming_cex :
    (onEvent (evt (some (1/2)) none none)
        (onEvent (evt none (some sampleResponse) none) runningState)).progress = 1/2
    ∧ (onEvent (evt none (some sampleResponse) none) runningState).progress = 1
    ∧ onEvent (evt (some (1/2)) none none)
        (onEvent (evt none (some sampleResponse) none) runningState) ≠
      onEvent (evt none (some sampleResponse) none) runningState := by
  refine ⟨rfl, rfl, fun h => ?_⟩
  have h2 : (1/2 : ℚ) = 1 := congrArg AppState.progress h
  exact absurd h2 (by norm_num)

/-- Claim C3 as amended: once a terminal transition has been applied the
controller keeps consuming events of the same stream, and each later event
is applied by the same rules as while Running: a later `progress` event
overwrites the stored progress, a later `error` event re-applies the
Failed transition, and a later `result` event re-applies the Succeeded
transition (last write wins). -/
theorem c3_stop_consuming_amended (s : AppState) (p : ℚ) (r : AnalyzeResponse)
    (m : String) (hterm : lifecycleOf s = .succeeded) (hm : m ≠ "") :
    onEvent (evt (some p) none none) s = { s with progress := p }
    ∧ onEvent (evt none none (some m)) s =
      { s with statusLevel := .error, statusMsg := m, running := false }
    ∧ onEvent (evt none (some r) none) s =
      { s with result := some r, statusLevel := .ok, statusMsg := "FERTIG",
               running := false, progress := 1 } := by
  refine ⟨rfl, ?_, rfl⟩
  simp only [onEvent, evt]
  split
  · rfl
  · rename_i hne
    exact absurd hm (by simpa using hne)

/-- Witness for `c3_stop_consuming_amended` in the concrete Succeeded
state. -/
theorem c3_stop_consuming_amended_witness :
    lifecycleOf succeededState = .succeeded ∧ ("x" : String) ≠ "" ∧
    (onEvent (evt (some (1/2)) none none) succeededState =
      { succeededState with progress := 1/2 }
    ∧ onEvent (evt none none (some "x")) succeededState =
      { succeededState with statusLevel := .error, statusMsg := "x", running := false }
    ∧ onEvent (evt none (some sampleResponse) none) succeededState =
      { succeededState with result := some sampleResponse, statusLevel := .ok,
                            statusMsg := "FERTIG", running := false, progress := 1 }) :=
  ⟨rfl, by decide,
    c3_stop_consuming_amended succeededState (1/2) sampleResponse "x" rfl (by decide)⟩

/-! Claim C6: progress clamping. -/

/-- Counterexample to claim C6: a progress of -0.5 is stored as -0.5 (not
clamped to 0) and a progress of 1.7 is stored as 1.7 (not clamped to 1):
`handleAnalyze` stores `event.progress` unmodified. -/
theorem c6_progress_clamp_cex :
    (onEvent (evt (some (-(1/2))) none none) runningState).progress = -(1/2)
    ∧ (onEvent (evt (some (-(1/2))) none none) runningState).progress ≠ 0
    ∧ (onEvent (evt (some (17/10)) none none) runningState).progress = 17/10
    ∧ (onEvent (evt (some (17/10)) none none) runningState).progress ≠ 1 := by
  refine ⟨rfl, fun h => ?_, rfl, fun h => ?_⟩
  · have h2 : (-(1/2) : ℚ) = 0 := h
    exact absurd h2 (by norm_num)
  · have h2 : (17/10 : ℚ) = 1 := h
    exact absurd h2 (by norm_num)

/-- Claim C6 as amended: for every event carrying a `progress` field
applied while Running, the stored progress becomes exactly that value —
no clamping to [0,1] is performed — with last-write-wins semantics and no
monotonicity enforcement. -/
theorem c6_progress_amended (s : AppState) (p q : ℚ) (hrun : s.running = true) :
    (onEvent (evt (some p) none none) s).progress = p
    ∧ (onEvent (evt (some q) none none) (onEvent (evt (some p) none none) s)).progress = q := by
  exact ⟨rfl, rfl⟩

/-- Witness for `c6_progress_amended` with out-of-range values. -/
theorem c6_progress_amended_witness :
    runningState.running = true ∧
    ((onEvent (evt (some (-(1/2))) none none) runningState).progress = -(1/2)
    ∧ (onEvent (evt (some (17/10)) none none)
        (onEvent (evt (some (-(1/2))) none none) runningState)).progress = 17/10) :=
  ⟨rfl, c6_progress_amended runningState (-(1/2)) (17/10) rfl⟩

/-! Claim C7: label stride. -/

/-- Claim C7: for every point count `N` and `maxLabels ≥ 1`, `ChartPanel`
computes the stride `max(1, floor(N / maxLabels))` — equal to the spec's
`labelStride` — with `labelStride(500,120) = 4` and
`labelStride(50,120) = 1`, and the axis-label callback shows a label
exactly for indices that are multiples of the stride. -/
theorem c7_label_stride (n m idx : Nat) (hm : 1 ≤ m) :
    chartStep n m = labelStrideSpec n m
    ∧ (axisLabelShow n m idx = true ↔ chartStep n m ∣ idx)
    ∧ chartStep 500 120 = 4
    ∧ chartStep 50 120 = 1 := by
  refine ⟨rfl, ?_, by decide, by decide⟩
  simp only [axisLabelShow, beq_iff_eq]
  exact Nat.dvd_iff_mod_eq_zero.symm

/-- Witness for `c7_label_stride` at N = 500, maxLabels = 120, index 8. -/
theorem c7_label_stride_witness :
    1 ≤ 120 ∧
    (chartStep 500 120 = labelStrideSpec 500 120
    ∧ (axisLabelShow 500 120 8 = true ↔ chartStep 500 120 ∣ 8)
    ∧ chartStep 500 120 = 4
    ∧ chartStep 50 120 = 1) :=
  ⟨by decide, c7_label_stride 500 120 8 (by decide)⟩

/-! Claim C8: tooltip gating. -/

/-- Claim C8: tooltips are enabled iff they are wanted and the point count
does not exceed the threshold; at threshold 300 the boundary is inclusive:
enabled at 300 points, disabled at 301. -/
theorem c8_tooltips (w : Bool) (n t : Nat) :
    (showTooltips w n t = true ↔ (w = true ∧ n ≤ t))
    ∧ showTooltips true 300 300 = true
    ∧ showTooltips true 301 300 = false := by
  refine ⟨?_, by decide, by decide⟩
  simp [showTooltips]

/-! Claim C9: cancel versus fail. -/

/-- Claim C9: when the transport read of a Running analysis rejects, the
catch handler classifies by the closure's own abort signal: after a local
`cancel()` the outcome is Cancelled, while without any prior abort the
outcome is Failed and carries the error's message; `running` ends false
either way. -/
theorem c9_cancel_vs_fail (g : SysState) (cid : Nat) (msg : String)
    (hrun : g.app.running = true) (hcur : g.current = some cid) :
    lifecycleOf (deliverCatch cid msg (handleCancel g)).app = .cancelled
    ∧ (g.abortedIds.contains cid = false →
        lifecycleOf (deliverCatch cid msg g).app = .failed
        ∧ (deliverCatch cid msg g).app.statusMsg = msg)
    ∧ (deliverCatch cid msg (handleCancel g)).app.running = false
    ∧ (deliverCatch cid msg g).app.running = false := by
  refine ⟨?_, fun hno => ?_, ?_, ?_⟩
  · simp [handleCancel, hcur, deliverCatch, catchUpdate, lifecycleOf]
  · have hmem : cid ∉ g.abortedIds := by simpa using hno
    constructor
    · simp [deliverCatch, catchUpdate, hmem, lifecycleOf]
    · simp [deliverCatch, catchUpdate, hmem]
  · simp [handleCancel, hcur, deliverCatch, catchUpdate]
  · simp only [deliverCatch, catchUpdate]
    split
    · rfl
    · rfl

/-- Witness for `c9_cancel_vs_fail` right after a first `start`. -/
theorem c9_cancel_vs_fail_witness :
    (startSync initSys).app.running = true ∧
    (startSync initSys).current = some 0 ∧
    (lifecycleOf (deliverCatch 0 "network error" (handleCancel (startSync initSys))).app =
      .cancelled
    ∧ ((startSync initSys).abortedIds.contains 0 = false →
        lifecycleOf (deliverCatch 0 "network error" (startSync initSys)).app = .failed
        ∧ (deliverCatch 0 "network error" (startSync initSys)).app.statusMsg =
          "network error")
    ∧ (deliverCatch 0 "network error" (handleCancel (startSync initSys))).app.running = false
    ∧ (deliverCatch 0 "network error" (startSync initSys)).app.running = false) :=
  ⟨rfl, rfl, c9_cancel_vs_fail (startSync initSys) 0 "network error" rfl rfl⟩

/-! Delimiter-scanning lemmas about `splitFrame`. -/

theorem splitFrame_append_some :
    ∀ l t a b, splitFrame l = some (a, b) →
      splitFrame (l ++ t) = some (a, b ++ t) := by
  intro l
  induction l with
  | nil => intro t a b h; simp [splitFrame] at h
  | cons c1 l1 ih =>
    intro t a b h
    cases l1 with
    | nil => simp [splitFrame] at h
    | cons c2 rest =>
      rw [splitFrame] at h
      rw [List.cons_append, List.cons_append, splitFrame]
      split at h
      · rename_i hnl
        rw [if_pos hnl]
        injection h with h
        injection h with ha hb
        subst ha; subst hb
        rfl
      · rename_i hnl
        rw [if_neg hnl]
        cases hsf : splitFrame (c2 :: rest) with
        | none => rw [hsf] at h; simp at h
        | some p =>
          obtain ⟨a0, b0⟩ := p
          rw [hsf] at h
          simp only [Option.some.injEq, Prod.mk.injEq] at h
          obtain ⟨ha, hb⟩ := h
          have h2 := ih t a0 b0 hsf
          rw [List.cons_append] at h2
          rw [h2]
          rw [← ha, ← hb]

theorem splitFrame_none_iff :
    ∀ l, splitFrame l = none ↔ ¬ (['\n', '\n'] <:+: l) := by
  intro l
  induction l with
  | nil =>
    simp [splitFrame]
  | cons c1 l1 ih =>
    cases l1 with
    | nil =>
      simp only [splitFrame, true_iff]
      intro h
      have := h.length_le
      simp at this
    | cons c2 rest =>
      rw [splitFrame]
      constructor
      · intro h hin
        split at h
        · simp at h
        · rename_i hnl
          cases hsf : splitFrame (c2 :: rest) with
          | some p => rw [hsf] at h; obtain ⟨a0, b0⟩ := p; simp at h
          | none =>
            have hnotin := (ih.mp hsf)
            rcases List.infix_cons_iff.mp hin with hpre | hinf
            · rcases hpre with ⟨u, hu⟩
              have h1 : c1 = '\n' ∧ c2 = '\n' := by
                have hu' := hu.symm
                injection hu' with e1 e2
                injection e2 with e3 e4
                exact ⟨e1, e3⟩
              exact hnl h1
            · exact hnotin hinf
      · intro hnin
        split
        · rename_i hnl
          obtain ⟨h1, h2⟩ := hnl
          exact absurd (List.infix_cons_iff.mpr
            (Or.inl (by rw [h1, h2]; exact ⟨rest, rfl⟩))) hnin
        · cases hsf : splitFrame (c2 :: rest) with
          | none => rfl
          | some p =>
            obtain ⟨a0, b0⟩ := p
            exfalso
            have := splitFrame_eq_append _ _ _ hsf
            apply hnin
            apply List.infix_cons_iff.mpr
            right
            rw [this]
            exact ⟨a0, b0, by simp⟩

theorem splitFrame_delim :
    ∀ f t, ¬ (['\n', '\n'] <:+: (f ++ ['\n'])) →
      splitFrame (f ++ '\n' :: '\n' :: t) = some (f, t) := by
  intro f
  induction f with
  | nil =>
    intro t _
    rw [List.nil_append, splitFrame]
    rw [if_pos ⟨rfl, rfl⟩]
  | cons c f1 ih =>
    intro t hnin
    cases f1 with
    | nil =>
      have hc : ¬ (c = '\n') := by
        intro hc
        exact hnin ⟨[], [], by simp [hc]⟩
      rw [List.cons_append, List.nil_append, splitFrame]
      rw [if_neg (fun hp => hc hp.1)]
      rw [show splitFrame ('\n' :: '\n' :: t) = some ([], t) by
        rw [splitFrame, if_pos ⟨rfl, rfl⟩]]
    | cons c2 f2 =>
      have hnin2 : ¬ (['\n', '\n'] <:+: ((c2 :: f2) ++ ['\n'])) := by
        intro hin
        exact hnin (hin.trans ⟨[c], [], by simp⟩)
      have hcc : ¬ (c = '\n' ∧ c2 = '\n') := by
        rintro ⟨h1, h2⟩
        exact hnin ⟨[], f2 ++ ['\n'], by simp [h1, h2]⟩
      rw [List.cons_append, List.cons_append, splitFrame, if_neg hcc]
      have h2 := ih t hnin2
      rw [List.cons_append] at h2
      rw [h2]

theorem no_delim_of_no_newline {l : List Char} (h : '\n' ∉ l) :
    ¬ (['\n', '\n'] <:+: (l ++ ['\n'])) := by
  intro hin
  have hc := hin.sublist.count_le '\n'
  rw [List.count_append] at hc
  rw [List.count_eq_zero.mpr h] at hc
  simp [List.count_cons] at hc

/-! Trimming lemmas. -/

theorem dropWhile_eq_self_append {f : Char → Bool} {l t : List Char}
    (h : l.dropWhile f = l) (hne : l ≠ []) :
    (l ++ t).dropWhile f = l ++ t := by
  cases l with
  | nil => exact absurd rfl hne
  | cons a l1 =>
    rw [List.dropWhile_cons] at h
    by_cases hf : f a = true
    · rw [if_pos hf] at h
      have hl := congrArg List.length h
      have hle := (List.dropWhile_sublist f (l := l1)).length_le
      simp at hl
      omega
    · rw [List.cons_append, List.dropWhile_cons, if_neg hf]

theorem trimLeft_data (p : List Char) : trimLeft (dataLit ++ p) = dataLit ++ p := by
  have hd : isWs 'd' = false := by decide
  rw [trimLeft, dataLit, List.cons_append, List.dropWhile_cons, hd]
  rfl

theorem trimRight_eq_self_append {x p : List Char}
    (hp : trimRight p = p) (hne : p ≠ []) :
    trimRight (x ++ p) = x ++ p := by
  have h1 : p.reverse.dropWhile isWs = p.reverse := by
    have h2 := congrArg List.reverse hp
    rw [trimRight] at h2
    simpa using h2
  rw [trimRight, List.reverse_append]
  rw [dropWhile_eq_self_append h1 (by simpa using hne)]
  simp

theorem trim_self {p : List Char} (h1 : trimLeft p = p) (h2 : trimRight p = p) :
    trim p = p := by
  rw [trim, h1, h2]

theorem trim_data {p : List Char}
    (h2 : trimRight p = p) (hne : p ≠ []) :
    trim (dataLit ++ p) = dataLit ++ p := by
  rw [trim, trimLeft_data, trimRight_eq_self_append h2 hne]

theorem drop5_data (p : List Char) : (dataLit ++ p).drop 5 = p := rfl

theorem startsWithData_data (p : List Char) :
    startsWithData (dataLit ++ p) = true := rfl

/-! Unfolding lemmas for `processBuffer`. -/

theorem pb_none {parse : List Char → Option Event} {buf : List Char}
    (h : splitFrame buf = none) :
    processBuffer parse buf = ([], .ok buf) := by
  rw [processBuffer.eq_def]
  split
  · rfl
  · rename_i frame rest hs2
    rw [h] at hs2
    exact absurd hs2 (by simp)

theorem pb_event {parse : List Char → Option Event}
    {buf frame rest data : List Char} {v : Event}
    (hs : splitFrame buf = some (frame, rest))
    (hd : startsWithData (trim frame) = true)
    (hdata : trim ((trim frame).drop 5) = data)
    (hne : data ≠ [])
    (hp : parse data = some v) :
    processBuffer parse buf =
      (v :: (processBuffer parse rest).1, (processBuffer parse rest).2) := by
  rw [processBuffer.eq_def]
  split
  · rename_i hs2
    rw [hs] at hs2
    exact absurd hs2 (by simp)
  · rename_i frame2 rest2 hs2
    rw [hs] at hs2
    injection hs2 with hs2
    injection hs2 with he1 he2
    subst he1; subst he2
    simp only [hd, if_pos, hdata]
    rw [if_neg (by simpa using hne)]
    rw [hp]

theorem pb_fail {parse : List Char → Option Event}
    {buf frame rest data : List Char}
    (hs : splitFrame buf = some (frame, rest))
    (hd : startsWithData (trim frame) = true)
    (hdata : trim ((trim frame).drop 5) = data)
    (hne : data ≠ [])
    (hp : parse data = none) :
    processBuffer parse buf = ([], .err data) := by
  rw [processBuffer.eq_def]
  split
  · rename_i hs2
    rw [hs] at hs2
    exact absurd hs2 (by simp)
  · rename_i frame2 rest2 hs2
    rw [hs] at hs2
    injection hs2 with hs2
    injection hs2 with he1 he2
    subst he1; subst he2
    simp only [hd, if_pos, hdata]
    rw [if_neg (by simpa using hne)]
    rw [hp]

theorem pb_empty {parse : List Char → Option Event}
    {buf frame rest : List Char}
    (hs : splitFrame buf = some (frame, rest))
    (hd : startsWithData (trim frame) = true)
    (hdata : trim ((trim frame).drop 5) = []) :
    processBuffer parse buf = processBuffer parse rest := by
  rw [processBuffer.eq_def]
  split
  · rename_i hs2
    rw [hs] at hs2
    exact absurd hs2 (by simp)
  · rename_i frame2 rest2 hs2
    rw [hs] at hs2
    injection hs2 with hs2
    injection hs2 with he1 he2
    subst he1; subst he2
    simp only [hd, if_pos, hdata]

theorem pb_nondata {parse : List Char → Option Event}
    {buf frame rest : List Char}
    (hs : splitFrame buf = some (frame, rest))
    (hd : startsWithData (trim frame) = false) :
    processBuffer parse buf = processBuffer parse rest := by
  rw [processBuffer.eq_def]
  split
  · rename_i hs2
    rw [hs] at hs2
    exact absurd hs2 (by simp)
  · rename_i frame2 rest2 hs2
    rw [hs] at hs2
    injection hs2 with hs2
    injection hs2 with he1 he2
    subst he1; subst he2
    rw [if_neg (by simp [hd])]

/-! Composition lemmas: draining a buffer fragment by fragment agrees with
draining the concatenation. -/

theorem splitFrame_nil : splitFrame ([] : List Char) = none := by
  rw [splitFrame]

theorem pb_ok_delim_aux (parse : List Char → Option Event) :
    ∀ n buf evs b, buf.length ≤ n → processBuffer parse buf = (evs, .ok b) →
      splitFrame b = none := by
  intro n
  induction n with
  | zero =>
    intro buf evs b hlen h
    have hbuf : buf = [] := by
      cases buf with
      | nil => rfl
      | cons a l => simp at hlen
    subst hbuf
    rw [pb_none splitFrame_nil] at h
    injection h with h1 h2
    injection h2 with h2
    subst h2
    exact splitFrame_nil
  | succ n ih =>
    intro buf evs b hlen h
    cases hs : splitFrame buf with
    | none =>
      rw [pb_none hs] at h
      injection h with h1 h2
      injection h2 with h2
      subst h2
      exact hs
    | some p =>
      obtain ⟨frame, rest⟩ := p
      have hrl : rest.length ≤ n := by
        have := splitFrame_rest_lt hs
        omega
      by_cases hd : startsWithData (trim frame) = true
      · by_cases hdata : trim ((trim frame).drop 5) = []
        · rw [pb_empty hs hd hdata] at h
          exact ih rest evs b hrl h
        · cases hp : parse (trim ((trim frame).drop 5)) with
          | some v =>
            rw [pb_event hs hd rfl hdata hp] at h
            injection h with hevs hb
            exact ih rest (processBuffer parse rest).1 b hrl
              (by rw [← hb])
          | none =>
            rw [pb_fail hs hd rfl hdata hp] at h
            injection h with h1 h2
            exact absurd h2 (by simp)
      · rw [pb_nondata hs (by simpa using hd)] at h
        exact ih rest evs b hrl h

theorem pb_ok_delim {parse : List Char → Option Event} {buf evs b}
    (h : processBuffer parse buf = (evs, .ok b)) : splitFrame b = none :=
  pb_ok_delim_aux parse buf.length buf evs b (Nat.le_refl _) h

theorem pb_append_aux (parse : List Char → Option Event) :
    ∀ n buf, buf.length ≤ n → ∀ t evs b,
      processBuffer parse buf = (evs, .ok b) →
      processBuffer parse (buf ++ t) =
        (evs ++ (processBuffer parse (b ++ t)).1,
         (processBuffer parse (b ++ t)).2) := by
  intro n
  induction n with
  | zero =>
    intro buf hlen t evs b h
    have hbuf : buf = [] := by
      cases buf with
      | nil => rfl
      | cons a l => simp at hlen
    subst hbuf
    rw [pb_none splitFrame_nil] at h
    injection h with h1 h2
    injection h2 with h2
    subst h1; subst h2
    simp
  | succ n ih =>
    intro buf hlen t evs b h
    cases hs : splitFrame buf with
    | none =>
      rw [pb_none hs] at h
      injection h with h1 h2
      injection h2 with h2
      subst h1; subst h2
      simp
    | some p =>
      obtain ⟨frame, rest⟩ := p
      have hrl : rest.length ≤ n := by
        have := splitFrame_rest_lt hs
        omega
      have hsApp := splitFrame_append_some buf t frame rest hs
      by_cases hd : startsWithData (trim frame) = true
      · by_cases hdata : trim ((trim frame).drop 5) = []
        · rw [pb_empty hs hd hdata] at h
          rw [pb_empty hsApp hd hdata]
          exact ih rest hrl t evs b h
        · cases hp : parse (trim ((trim frame).drop 5)) with
          | some v =>
            rw [pb_event hs hd rfl hdata hp] at h
            injection h with hevs hb
            have ihr := ih rest hrl t (processBuffer parse rest).1 b
              (by rw [← hb])
            rw [pb_event hsApp hd rfl hdata hp, ihr, ← hevs]
            simp
          | none =>
            rw [pb_fail hs hd rfl hdata hp] at h
            injection h with h1 h2
            exact absurd h2 (by simp)
      · rw [pb_nondata hs (by simpa using hd)] at h
        rw [pb_nondata hsApp (by simpa using hd)]
        exact ih rest hrl t evs b h

theorem pb_append {parse : List Char → Option Event} {buf t evs b}
    (h : processBuffer parse buf = (evs, .ok b)) :
    processBuffer parse (buf ++ t) =
      (evs ++ (processBuffer parse (b ++ t)).1,
       (processBuffer parse (b ++ t)).2) :=
  pb_append_aux parse buf.length buf (Nat.le_refl _) t evs b h

theorem pb_append_err_aux (parse : List Char → Option Event) :
    ∀ n buf, buf.length ≤ n → ∀ t evs d,
      processBuffer parse buf = (evs, .err d) →
      processBuffer parse (buf ++ t) = (evs, .err d) := by
  intro n
  induction n with
  | zero =>
    intro buf hlen t evs d h
    have hbuf : buf = [] := by
      cases buf with
      | nil => rfl
      | cons a l => simp at hlen
    subst hbuf
    rw [pb_none splitFrame_nil] at h
    injection h with h1 h2
    exact absurd h2 (by simp)
  | succ n ih =>
    intro buf hlen t evs d h
    cases hs : splitFrame buf with
    | none =>
      rw [pb_none hs] at h
      injection h with h1 h2
      exact absurd h2 (by simp)
    | some p =>
      obtain ⟨frame, rest⟩ := p
      have hrl : rest.length ≤ n := by
        have := splitFrame_rest_lt hs
        omega
      have hsApp := splitFrame_append_some buf t frame rest hs
      by_cases hd : startsWithData (trim frame) = true
      · by_cases hdata : trim ((trim frame).drop 5) = []
        · rw [pb_empty hs hd hdata] at h
          rw [pb_empty hsApp hd hdata]
          exact ih rest hrl t evs d h
        · cases hp : parse (trim ((trim frame).drop 5)) with
          | some v =>
            rw [pb_event hs hd rfl hdata hp] at h
            injection h with hevs hb
            have ihr := ih rest hrl t (processBuffer parse rest).1 d
              (by rw [← hb])
            rw [pb_event hsApp hd rfl hdata hp, ihr, ← hevs]
          | none =>
            rw [pb_fail hs hd rfl hdata hp] at h
            injection h with h1 h2
            injection h2 with h2
            subst h1; subst h2
            exact pb_fail hsApp hd rfl hdata hp
      · rw [pb_nondata hs (by simpa using hd)] at h
        rw [pb_nondata hsApp (by simpa using hd)]
        exact ih rest hrl t evs d h

theorem pb_append_err {parse : List Char → Option Event} {buf t evs d}
    (h : processBuffer parse buf = (evs, .err d)) :
    processBuffer parse (buf ++ t) = (evs, .err d) :=
  pb_append_err_aux parse buf.length buf (Nat.le_refl _) t evs d h

/-! Lemmas about the incremental UTF-8 decoder. -/

theorem decode1_nil : decode1 ([] : List Nat) = none := rfl

theorem decode1_append :
    ∀ bs t c r, decode1 bs = some (c, r) →
      decode1 (bs ++ t) = some (c, r ++ t) := by
  intro bs t c r h
  match bs with
  | [] => simp [decode1] at h
  | b :: rest =>
    rw [decode1.eq_def] at h
    simp only at h
    rw [List.cons_append, decode1.eq_def]
    simp only
    split at h
    · rename_i h1
      rw [if_pos h1]
      injection h with h
      injection h with hc hr
      subst hc; subst hr; rfl
    · rename_i h1
      rw [if_neg h1]
      split at h
      · rename_i h2
        rw [if_pos h2]
        injection h with h
        injection h with hc hr
        subst hc; subst hr; rfl
      · rename_i h2
        rw [if_neg h2]
        split at h
        · rename_i h3
          rw [if_pos h3]
          match rest with
          | [] => simp at h
          | b1 :: r1 =>
            rw [List.cons_append]
            simp only at h ⊢
            split at h
            · rename_i h4
              rw [if_pos h4]
              injection h with h
              injection h with hc hr
              subst hc; subst hr; rfl
            · rename_i h4
              rw [if_neg h4]
              injection h with h
              injection h with hc hr
              subst hc; subst hr; rfl
        · rename_i h3
          rw [if_neg h3]
          split at h
          · rename_i h4
            rw [if_pos h4]
            match rest with
            | [] => simp at h
            | [b1] => simp at h
            | b1 :: b2 :: r2 =>
              rw [List.cons_append, List.cons_append]
              simp only at h ⊢
              split at h
              · rename_i h5
                rw [if_pos h5]
                injection h with h
                injection h with hc hr
                subst hc; subst hr; rfl
              · rename_i h5
                rw [if_neg h5]
                injection h with h
                injection h with hc hr
                subst hc; subst hr; rfl
          · rename_i h4
            rw [if_neg h4]
            split at h
            · rename_i h5
              rw [if_pos h5]
              match rest with
              | [] => simp at h
              | [b1] => simp at h
              | [b1, b2] => simp at h
              | b1 :: b2 :: b3 :: r3 =>
                rw [List.cons_append, List.cons_append, List.cons_append]
                simp only at h ⊢
                split at h
                · rename_i h6
                  rw [if_pos h6]
                  injection h with h
                  injection h with hc hr
                  subst hc; subst hr; rfl
                · rename_i h6
                  rw [if_neg h6]
                  injection h with h
                  injection h with hc hr
                  subst hc; subst hr; rfl
            · rename_i h5
              rw [if_neg h5]
              injection h with h
              injection h with hc hr
              subst hc; subst hr; rfl

theorem ds_none {bs : List Nat} (h : decode1 bs = none) :
    decodeStep bs = ([], bs) := by
  rw [decodeStep.eq_def]
  split
  · rfl
  · rename_i c r hd2
    rw [h] at hd2
    exact absurd hd2 (by simp)

theorem ds_some {bs : List Nat} {c : Char} {r : List Nat}
    (h : decode1 bs = some (c, r)) :
    decodeStep bs = (c :: (decodeStep r).1, (decodeStep r).2) := by
  rw [decodeStep.eq_def]
  split
  · rename_i hd2
    rw [h] at hd2
    exact absurd hd2 (by simp)
  · rename_i c2 r2 hd2
    rw [h] at hd2
    injection hd2 with hd2
    injection hd2 with he1 he2
    subst he1; subst he2
    rfl

theorem ds_pending_aux : ∀ n bs, bs.length ≤ n →
    decode1 ((decodeStep bs).2) = none := by
  intro n
  induction n with
  | zero =>
    intro bs hlen
    have hbs : bs = [] := by
      cases bs with
      | nil => rfl
      | cons a l => simp at hlen
    subst hbs
    rw [ds_none decode1_nil]
    exact decode1_nil
  | succ n ih =>
    intro bs hlen
    cases hd : decode1 bs with
    | none => rw [ds_none hd]; exact hd
    | some p =>
      obtain ⟨c, r⟩ := p
      have hrl : r.length ≤ n := by
        have := decode1_rest_lt bs c r hd
        omega
      rw [ds_some hd]
      exact ih r hrl

theorem ds_pending (bs : List Nat) : decode1 ((decodeStep bs).2) = none :=
  ds_pending_aux bs.length bs (Nat.le_refl _)

theorem decodeStep_append_aux : ∀ n bs, bs.length ≤ n → ∀ t cs p,
    decodeStep bs = (cs, p) →
    decodeStep (bs ++ t) =
      (cs ++ (decodeStep (p ++ t)).1, (decodeStep (p ++ t)).2) := by
  intro n
  induction n with
  | zero =>
    intro bs hlen t cs p h
    have hbs : bs = [] := by
      cases bs with
      | nil => rfl
      | cons a l => simp at hlen
    subst hbs
    rw [ds_none decode1_nil] at h
    injection h with h1 h2
    subst h1; subst h2
    simp
  | succ n ih =>
    intro bs hlen t cs p h
    cases hd : decode1 bs with
    | none =>
      rw [ds_none hd] at h
      injection h with h1 h2
      subst h1; subst h2
      simp
    | some q =>
      obtain ⟨c, r⟩ := q
      have hrl : r.length ≤ n := by
        have := decode1_rest_lt bs c r hd
        omega
      rw [ds_some hd] at h
      injection h with h1 h2
      have ihr := ih r hrl t (decodeStep r).1 p (by rw [← h2])
      rw [ds_some (decode1_append bs t c r hd), ihr, ← h1]
      simp

theorem decodeStep_append {bs t : List Nat} {cs : List Char} {p : List Nat}
    (h : decodeStep bs = (cs, p)) :
    decodeStep (bs ++ t) =
      (cs ++ (decodeStep (p ++ t)).1, (decodeStep (p ++ t)).2) :=
  decodeStep_append_aux bs.length bs (Nat.le_refl _) t cs p h

theorem char_toNat_lt (c : Char) : c.toNat < 1114112 := by
  have h := c.valid
  rcases h with h | ⟨h1, h2⟩
  · exact Nat.lt_trans h (by norm_num)
  · exact h2

theorem decode1_encodeChar (c : Char) (t : List Nat) :
    decode1 (utf8EncodeChar c ++ t) = some (c, t) := by
  have hv := char_toNat_lt c
  by_cases h1 : c.toNat < 0x80
  · simp only [utf8EncodeChar, if_pos h1, List.cons_append, List.nil_append]
    rw [decode1.eq_def]
    simp only
    rw [if_pos h1, Char.ofNat_toNat]
  · by_cases h2 : c.toNat < 0x800
    · have hm : c.toNat % 64 < 64 := Nat.mod_lt _ (by norm_num)
      have hd : 2 ≤ c.toNat / 64 := by omega
      have hd2 : c.toNat / 64 < 32 := by omega
      have e1 : ¬ (0xC0 + c.toNat / 64 < 0x80) := by omega
      have e2 : ¬ (0xC0 + c.toNat / 64 < 0xC0) := by omega
      have e3 : 0xC0 + c.toNat / 64 < 0xE0 := by omega
      have e4 : isCont (0x80 + c.toNat % 64) = true := by
        simp only [isCont, Bool.and_eq_true, decide_eq_true_eq]
        omega
      have e5 : (0xC0 + c.toNat / 64 - 0xC0) * 64 + (0x80 + c.toNat % 64 - 0x80) =
          c.toNat := by omega
      simp only [utf8EncodeChar, if_neg h1, if_pos h2, List.cons_append,
        List.nil_append]
      rw [decode1.eq_def]
      simp only
      rw [if_neg e1, if_neg e2, if_pos e3]
      simp only [e4, if_pos]
      rw [e5, Char.ofNat_toNat]
    · by_cases h3 : c.toNat < 0x10000
      · have hm1 : c.toNat % 64 < 64 := Nat.mod_lt _ (by norm_num)
        have hm2 : (c.toNat / 64) % 64 < 64 := Nat.mod_lt _ (by norm_num)
        have hd2 : c.toNat / 4096 < 16 := by omega
        have e1 : ¬ (0xE0 + c.toNat / 4096 < 0x80) := by omega
        have e2 : ¬ (0xE0 + c.toNat / 4096 < 0xC0) := by omega
        have e3 : ¬ (0xE0 + c.toNat / 4096 < 0xE0) := by omega
        have e4 : 0xE0 + c.toNat / 4096 < 0xF0 := by omega
        have e5 : isCont (0x80 + (c.toNat / 64) % 64) = true := by
          simp only [isCont, Bool.and_eq_true, decide_eq_true_eq]
          omega
        have e6 : isCont (0x80 + c.toNat % 64) = true := by
          simp only [isCont, Bool.and_eq_true, decide_eq_true_eq]
          omega
        have e7 : (0xE0 + c.toNat / 4096 - 0xE0) * 4096 +
            (0x80 + (c.toNat / 64) % 64 - 0x80) * 64 +
            (0x80 + c.toNat % 64 - 0x80) = c.toNat := by omega
        simp only [utf8EncodeChar, if_neg h1, if_neg h2, if_pos h3,
          List.cons_append, List.nil_append]
        rw [decode1.eq_def]
        simp only
        rw [if_neg e1, if_neg e2, if_neg e3, if_pos e4]
        simp only [e5, e6, Bool.and_self, if_pos]
        rw [e7, Char.ofNat_toNat]
      · have hm1 : c.toNat % 64 < 64 := Nat.mod_lt _ (by norm_num)
        have hm2 : (c.toNat / 64) % 64 < 64 := Nat.mod_lt _ (by norm_num)
        have hm3 : (c.toNat / 4096) % 64 < 64 := Nat.mod_lt _ (by norm_num)
        have hd2 : c.toNat / 262144 < 5 := by omega
        have e1 : ¬ (0xF0 + c.toNat / 262144 < 0x80) := by omega
        have e2 : ¬ (0xF0 + c.toNat / 262144 < 0xC0) := by omega
        have e3 : ¬ (0xF0 + c.toNat / 262144 < 0xE0) := by omega
        have e4 : ¬ (0xF0 + c.toNat / 262144 < 0xF0) := by omega
        have e5 : 0xF0 + c.toNat / 262144 < 0xF8 := by omega
        have e6 : isCont (0x80 + (c.toNat / 4096) % 64) = true := by
          simp only [isCont, Bool.and_eq_true, decide_eq_true_eq]
          omega
        have e7 : isCont (0x80 + (c.toNat / 64) % 64) = true := by
          simp only [isCont, Bool.and_eq_true, decide_eq_true_eq]
          omega
        have e8 : isCont (0x80 + c.toNat % 64) = true := by
          simp only [isCont, Bool.and_eq_true, decide_eq_true_eq]
          omega
        have e9 : (0xF0 + c.toNat / 262144 - 0xF0) * 262144 +
            (0x80 + (c.toNat / 4096) % 64 - 0x80) * 4096 +
            (0x80 + (c.toNat / 64) % 64 - 0x80) * 64 +
            (0x80 + c.toNat % 64 - 0x80) = c.toNat := by omega
        simp only [utf8EncodeChar, if_neg h1, if_neg h2, if_neg h3,
          List.cons_append, List.nil_append]
        rw [decode1.eq_def]
        simp only
        rw [if_neg e1, if_neg e2, if_neg e3, if_neg e4, if_pos e5]
        simp only [e6, e7, e8, Bool.and_self, if_pos]
        rw [e9, Char.ofNat_toNat]

theorem decodeStep_encode : ∀ s : List Char, decodeStep (utf8Encode s) = (s, []) := by
  intro s
  induction s with
  | nil =>
    rw [utf8Encode]
    rw [ds_none decode1_nil]
  | cons c cs ih =>
    rw [utf8Encode]
    rw [ds_some (decode1_encodeChar c (utf8Encode cs))]
    rw [ih]

/-! Composition of the whole read loop. -/

theorem runStream_eq_runText (parse : List Char → Option Event) :
    ∀ frags pending buf,
      runStream parse pending buf frags = runText parse buf (charFrags pending frags) := by
  intro frags
  induction frags with
  | nil => intro pending buf; rfl
  | cons f fs ih =>
    intro pending buf
    simp only [runStream, charFrags, runText]
    cases hpb : processBuffer parse (buf ++ (decodeStep (pending ++ f)).1) with
    | mk evs out =>
      cases out with
      | ok b => simp [ih]
      | err d => simp

theorem joinL_charFrags :
    ∀ frags pending, decode1 pending = none →
      joinL (charFrags pending frags) = (decodeStep (pending ++ joinL frags)).1 := by
  intro frags
  induction frags with
  | nil =>
    intro pending hp
    rw [charFrags, joinL]
    rw [show pending ++ joinL [] = pending by simp [joinL]]
    rw [ds_none hp]
  | cons f fs ih =>
    intro pending hp
    simp only [charFrags, joinL]
    rw [ih (decodeStep (pending ++ f)).2 (ds_pending (pending ++ f))]
    have hstep := @decodeStep_append (pending ++ f) (joinL fs)
      (decodeStep (pending ++ f)).1 (decodeStep (pending ++ f)).2
      Prod.mk.eta.symm
    rw [List.append_assoc] at hstep
    rw [hstep]

theorem runText_join (parse : List Char → Option Event) :
    ∀ frags buf, splitFrame buf = none →
      runText parse buf frags =
        ((processBuffer parse (buf ++ joinL frags)).1,
         match (processBuffer parse (buf ++ joinL frags)).2 with
         | .ok b => StreamOut.closed b
         | .err d => StreamOut.failed d) := by
  intro frags
  induction frags with
  | nil =>
    intro buf hb
    rw [runText]
    rw [show buf ++ joinL [] = buf by simp [joinL]]
    rw [pb_none hb]
  | cons f fs ih =>
    intro buf hb
    simp only [runText, joinL]
    cases hpb : processBuffer parse (buf ++ f) with
    | mk evs out =>
      cases out with
      | ok b =>
        have hb2 : splitFrame b = none := pb_ok_delim hpb
        have happ := pb_append (t := joinL fs) hpb
        rw [← List.append_assoc, happ]
        simp only
        rw [ih b hb2]
      | err d =>
        have happ := pb_append_err (t := joinL fs) hpb
        rw [← List.append_assoc, happ]

/-! Draining a buffer that is a concatenation of well-formed frames. -/

theorem pb_frames (parse : List Char → Option Event) :
    ∀ (payloads : List (List Char)) (vs : List Event) (trailing : List Char),
      (∀ p ∈ payloads, goodPayload p) →
      payloads.map parse = vs.map some → splitFrame trailing = none →
      processBuffer parse (joinL (payloads.map mkFrame) ++ trailing) =
        (vs, .ok trailing) := by
  intro payloads
  induction payloads with
  | nil =>
    intro vs trailing hgood hvs htr
    have hvnil : vs = [] := by
      cases vs with
      | nil => rfl
      | cons v vs1 => simp at hvs
    subst hvnil
    simp only [List.map_nil, joinL, List.nil_append]
    exact pb_none htr
  | cons p ps ih =>
    intro vs trailing hgood hvs htr
    have hgp : goodPayload p := hgood p (by simp)
    have hgps : ∀ q ∈ ps, goodPayload q := fun q hq => hgood q (by simp [hq])
    obtain ⟨hnp, hnl, hnr, hne⟩ := hgp
    cases vs with
    | nil => simp at hvs
    | cons v vs1 =>
      simp only [List.map_cons, List.cons.injEq] at hvs
      obtain ⟨hv, hvs1⟩ := hvs
      have hshape : joinL ((p :: ps).map mkFrame) ++ trailing =
          (dataLit ++ p) ++ '\n' :: '\n' :: (joinL (ps.map mkFrame) ++ trailing) := by
        simp [joinL, mkFrame, List.append_assoc]
      have hsf : splitFrame ((dataLit ++ p) ++
          '\n' :: '\n' :: (joinL (ps.map mkFrame) ++ trailing)) =
          some (dataLit ++ p, joinL (ps.map mkFrame) ++ trailing) := by
        apply splitFrame_delim
        apply no_delim_of_no_newline
        intro hin
        rcases List.mem_append.mp hin with hmem | hmem
        · simp [dataLit] at hmem
        · exact hnp hmem
      rw [hshape]
      rw [pb_event hsf
        (by rw [trim_data hnr hne]; exact startsWithData_data p)
        (by rw [trim_data hnr hne, drop5_data]; exact trim_self hnl hnr)
        hne hv]
      rw [ih vs1 trailing hgps hvs1 htr]

theorem pb_frames_err (parse : List Char → Option Event) :
    ∀ (payloads : List (List Char)) (vs : List Event) (bad restText : List Char),
      (∀ p ∈ payloads, goodPayload p) →
      payloads.map parse = vs.map some →
      goodPayload bad → parse bad = none →
      processBuffer parse
          (joinL (payloads.map mkFrame) ++ (mkFrame bad ++ restText)) =
        (vs, .err bad) := by
  intro payloads
  induction payloads with
  | nil =>
    intro vs bad restText hgood hvs hgb hpb
    have hvnil : vs = [] := by
      cases vs with
      | nil => rfl
      | cons v vs1 => simp at hvs
    subst hvnil
    obtain ⟨hnp, hnl, hnr, hne⟩ := hgb
    have hshape : joinL (([] : List (List Char)).map mkFrame) ++
        (mkFrame bad ++ restText) =
        (dataLit ++ bad) ++ '\n' :: '\n' :: restText := by
      simp [joinL, mkFrame, List.append_assoc]
    have hsf : splitFrame ((dataLit ++ bad) ++ '\n' :: '\n' :: restText) =
        some (dataLit ++ bad, restText) := by
      apply splitFrame_delim
      apply no_delim_of_no_newline
      intro hin
      rcases List.mem_append.mp hin with hmem | hmem
      · simp [dataLit] at hmem
      · exact hnp hmem
    rw [hshape]
    exact pb_fail hsf
      (by rw [trim_data hnr hne]; exact startsWithData_data bad)
      (by rw [trim_data hnr hne, drop5_data]; exact trim_self hnl hnr)
      hne hpb
  | cons p ps ih =>
    intro vs bad restText hgood hvs hgb hpb
    have hgp : goodPayload p := hgood p (by simp)
    have hgps : ∀ q ∈ ps, goodPayload q := fun q hq => hgood q (by simp [hq])
    obtain ⟨hnp, hnl, hnr, hne⟩ := hgp
    cases vs with
    | nil => simp at hvs
    | cons v vs1 =>
      simp only [List.map_cons, List.cons.injEq] at hvs
      obtain ⟨hv, hvs1⟩ := hvs
      have hshape : joinL ((p :: ps).map mkFrame) ++ (mkFrame bad ++ restText) =
          (dataLit ++ p) ++ '\n' :: '\n' ::
            (joinL (ps.map mkFrame) ++ (mkFrame bad ++ restText)) := by
        simp [joinL, mkFrame, List.append_assoc]
      have hsf : splitFrame ((dataLit ++ p) ++ '\n' :: '\n' ::
          (joinL (ps.map mkFrame) ++ (mkFrame bad ++ restText))) =
          some (dataLit ++ p,
            joinL (ps.map mkFrame) ++ (mkFrame bad ++ restText)) := by
        apply splitFrame_delim
        apply no_delim_of_no_newline
        intro hin
        rcases List.mem_append.mp hin with hmem | hmem
        · simp [dataLit] at hmem
        · exact hnp hmem
      rw [hshape]
      rw [pb_event hsf
        (by rw [trim_data hnr hne]; exact startsWithData_data p)
        (by rw [trim_data hnr hne, drop5_data]; exact trim_self hnl hnr)
        hne hv]
      rw [ih vs1 bad restText hgps hvs1 hgb hpb]

/-! Claim C4: frame reassembly and delimiter scanning. -/

/-- Claim C4: for every sequence of byte fragments whose concatenation is
the UTF-8 encoding of N well-formed frames `data:<json>\n\n` followed by
an optional unterminated partial frame — any fragmentation whatsoever,
including mid-multibyte-character splits and the single-fragment case —
the decoder emits exactly the N parses of the payloads, in order, and the
trailing partial frame is discarded at stream close without emitting an
event. -/
theorem c4_frame_reassembly (parse : List Char → Option Event)
    (frags : List (List Nat)) (payloads : List (List Char)) (vs : List Event)
    (trailing : List Char)
    (hbytes : joinL frags = utf8Encode (joinL (payloads.map mkFrame) ++ trailing))
    (hgood : ∀ p ∈ payloads, goodPayload p)
    (hvs : payloads.map parse = vs.map some)
    (htrail : ¬ (['\n', '\n'] <:+: trailing)) :
    runStream parse [] [] frags = (vs, .closed trailing) := by
  have htr : splitFrame trailing = none := (splitFrame_none_iff trailing).mpr htrail
  rw [runStream_eq_runText]
  rw [runText_join parse (charFrags [] frags) [] splitFrame_nil]
  have hchars : joinL (charFrags [] frags) =
      joinL (payloads.map mkFrame) ++ trailing := by
    rw [joinL_charFrags frags [] decode1_nil]
    rw [List.nil_append, hbytes, decodeStep_encode]
  rw [List.nil_append, hchars]
  rw [pb_frames parse payloads vs trailing hgood hvs htr]

/-- Witness for `c4_frame_reassembly`: the frame `data:1\n\n`, split into
the two byte fragments `dat` and `a:1\n\n`, decoded with `parse1`. -/
theorem c4_frame_reassembly_witness :
    joinL [[100, 97, 116], [97, 58, 49, 10, 10]] =
      utf8Encode (joinL ([['1']].map mkFrame) ++ []) ∧
    (∀ p ∈ [['1']], goodPayload p) ∧
    [['1']].map parse1 = [evt (some 1) none none].map some ∧
    ¬ (['\n', '\n'] <:+: ([] : List Char)) ∧
    runStream parse1 [] [] [[100, 97, 116], [97, 58, 49, 10, 10]] =
      ([evt (some 1) none none], .closed []) :=
  ⟨by decide, by decide, by decide, by decide,
    c4_frame_reassembly parse1 [[100, 97, 116], [97, 58, 49, 10, 10]]
      [['1']] [evt (some 1) none none] []
      (by decide) (by decide) (by decide) (by decide)⟩

/-! Claim C5: malformed JSON fails loudly. -/

/-- Claim C5: a complete `data:` frame whose payload the JSON parser
rejects makes the decode fail loudly: the events of the earlier frames are
delivered, the decode sequence then terminates with an error — nothing
after the bad frame is consumed, whatever `restText` holds — and the
controller's catch handler (no abort requested) classifies the propagated
error as a transport failure: status `ERROR`, running false, lifecycle
Failed. -/
theorem c5_malformed_json (parse : List Char → Option Event)
    (errMsg : List Char → String) (frags : List (List Nat))
    (pre : List (List Char)) (bad restText : List Char)
    (vs : List Event) (s0 : AppState)
    (hbytes : joinL frags =
      utf8Encode (joinL (pre.map mkFrame) ++ (mkFrame bad ++ restText)))
    (hgood : ∀ p ∈ pre, goodPayload p)
    (hvs : pre.map parse = vs.map some)
    (hgb : goodPayload bad)
    (hpb : parse bad = none) :
    runStream parse [] [] frags = (vs, .failed bad)
    ∧ analyzeRun parse errMsg false frags s0 =
        catchUpdate false (errMsg bad) (vs.foldl (fun s e => onEvent e s) s0)
    ∧ lifecycleOf (analyzeRun parse errMsg false frags s0) = .failed := by
  have h1 : runStream parse [] [] frags = (vs, .failed bad) := by
    rw [runStream_eq_runText]
    rw [runText_join parse (charFrags [] frags) [] splitFrame_nil]
    have hchars : joinL (charFrags [] frags) =
        joinL (pre.map mkFrame) ++ (mkFrame bad ++ restText) := by
      rw [joinL_charFrags frags [] decode1_nil]
      rw [List.nil_append, hbytes, decodeStep_encode]
    rw [List.nil_append, hchars]
    rw [pb_frames_err parse pre vs bad restText hgood hvs hgb hpb]
  have h2 : analyzeRun parse errMsg false frags s0 =
      catchUpdate false (errMsg bad) (vs.foldl (fun s e => onEvent e s) s0) := by
    simp only [analyzeRun, h1]
  refine ⟨h1, h2, ?_⟩
  rw [h2]
  simp [catchUpdate, lifecycleOf]

/-- Witness for `c5_malformed_json`: the single frame `data:x\n\n`, whose
payload `x` the parse function `parse1` rejects, delivered whole to a
running controller. -/
theorem c5_malformed_json_witness :
    joinL [[100, 97, 116, 97, 58, 120, 10, 10]] =
      utf8Encode (joinL (([] : List (List Char)).map mkFrame) ++
        (mkFrame ['x'] ++ [])) ∧
    (∀ p ∈ ([] : List (List Char)), goodPayload p) ∧
    ([] : List (List Char)).map parse1 = ([] : List Event).map some ∧
    goodPayload ['x'] ∧
    parse1 ['x'] = none ∧
    (runStream parse1 [] [] [[100, 97, 116, 97, 58, 120, 10, 10]] =
        ([], .failed ['x'])
    ∧ analyzeRun parse1 (fun _ => "Unexpected token") false
        [[100, 97, 116, 97, 58, 120, 10, 10]] runningState =
        catchUpdate false "Unexpected token"
          (([] : List Event).foldl (fun s e => onEvent e s) runningState)
    ∧ lifecycleOf (analyzeRun parse1 (fun _ => "Unexpected token") false
        [[100, 97, 116, 97, 58, 120, 10, 10]] runningState) = .failed) :=
  ⟨by decide, by decide, by decide, by decide, by decide,
    c5_malformed_json parse1 (fun _ => "Unexpected token")
      [[100, 97, 116, 97, 58, 120, 10, 10]] [] ['x'] [] [] runningState
      (by decide) (by decide) (by decide) (by decide) (by decide)⟩

/-! Claim C10: empty payloads are silently discarded. -/

/-- Claim C10: a complete frame whose trimmed text begins with `data:` but
whose payload, after stripping the marker and trimming, is empty, emits no
event and raises no error: draining the buffer continues with the frames
after it exactly as if the empty frame were absent. -/
theorem c10_empty_payload (parse : List Char → Option Event)
    (f rest : List Char)
    (hdelim : ¬ (['\n', '\n'] <:+: (f ++ ['\n'])))
    (hd : startsWithData (trim f) = true)
    (hempty : trim ((trim f).drop 5) = []) :
    processBuffer parse (f ++ '\n' :: '\n' :: rest) = processBuffer parse rest :=
  pb_empty (splitFrame_delim f rest hdelim) hd hempty

/-- Witness for `c10_empty_payload`: the frame `data: \n\n` followed by an
empty remainder. -/
theorem c10_empty_payload_witness :
    ¬ (['\n', '\n'] <:+: (['d', 'a', 't', 'a', ':', ' '] ++ ['\n'])) ∧
    startsWithData (trim ['d', 'a', 't', 'a', ':', ' ']) = true ∧
    trim ((trim ['d', 'a', 't', 'a', ':', ' ']).drop 5) = [] ∧
    processBuffer parse1 (['d', 'a', 't', 'a', ':', ' '] ++ '\n' :: '\n' :: []) =
      processBuffer parse1 [] :=
  ⟨by decide, by decide, by decide,
    c10_empty_payload parse1 ['d', 'a', 't', 'a', ':', ' '] []
      (by decide) (by decide) (by decide)⟩

end Apollo
